import Mathlib

/-!
# Verification of the deadlock-detection core of `app.py`

Shallow embedding of the three core functions of the tool — `validate_inputs`,
`detect_deadlock` and `suggest_resolution` — together with proofs of the
specification's testable properties.

Modelling conventions:
* Python integers are `Int`; matrices are `List (List Int)`.
* Python list indexing `xs[i]` is modelled by `List.getD i d`.  On every input
  reachable in the claims (validated shapes, loop indices drawn from
  `List.range n`) all accesses are in bounds, so the default is never consulted.
* The `while True` loop of `detect_deadlock` is modelled with fuel `n + 1`;
  `detect_loop_fuel_irrelevant` below proves that any fuel `≥ n + 1` produces
  the same state, so this is exactly the terminating behaviour of the loop.
* `min(deadlocked, key=...)` with its `except ValueError: pass` fallback is
  `minByKey`, which returns `none` exactly when Python's `min` would raise
  `ValueError` (empty iterable).
-/

set_option maxRecDepth 10000

namespace Deadlock

/-- Entry access: `matEntry mat i j` is Python's `mat[i][j]` (total via defaults). -/
def matEntry (mat : List (List Int)) (i j : Nat) : Int :=
  (mat.getD i []).getD j 0

/-- The function `validate_inputs` from `app.py`: shape checks for allocation, request and
available (in that order, first failure wins), then the non-negativity scans. -/
def validate_inputs (n m : Nat) (allocation request : List (List Int))
    (available : List Int) : Bool × String :=
  if allocation.length ≠ n ∨ ∃ row ∈ allocation, row.length ≠ m then
    (false, "Allocation matrix must be n x m.")
  else if request.length ≠ n ∨ ∃ row ∈ request, row.length ≠ m then
    (false, "Request matrix must be n x m.")
  else if available.length ≠ m then
    (false, "Available vector must have m elements.")
  else if ∃ i ∈ List.range n, ∃ j ∈ List.range m,
      matEntry allocation i j < 0 ∨ matEntry request i j < 0 then
    (false, "Values must be non-negative.")
  else if ∃ val ∈ available, val < 0 then
    (false, "Available values must be non-negative.")
  else
    (true, "")

/-- The guard `all(request[i][j] <= work[j] for j in range(m))`. -/
def canFinish (m : Nat) (reqRow work : List Int) : Bool :=
  (List.range m).all fun j => decide (reqRow.getD j 0 ≤ work.getD j 0)

/-- The update `work = [work[j] + allocation[i][j] for j in range(m)]`. -/
def releaseWork (m : Nat) (work allocRow : List Int) : List Int :=
  (List.range m).map fun j => work.getD j 0 + allocRow.getD j 0

/-- One iteration of the inner `for i in range(n)` body of `detect_deadlock`,
acting on the state `(work, finish, found)`. -/
def passStep (m : Nat) (allocation request : List (List Int))
    (st : List Int × List Bool × Bool) (i : Nat) : List Int × List Bool × Bool :=
  if st.2.1.getD i false = false ∧ canFinish m (request.getD i []) st.1 = true then
    (releaseWork m st.1 (allocation.getD i []), st.2.1.set i true, true)
  else
    st

/-- One full pass of the inner `for` loop, visiting processes in the order
given by `order` (`List.range n` in the source), with `found` reset to
`False` at the start of the pass. -/
def detect_pass (order : List Nat) (m : Nat) (allocation request : List (List Int))
    (work : List Int) (finish : List Bool) : List Int × List Bool × Bool :=
  order.foldl (passStep m allocation request) (work, finish, false)

/-- The `while True` loop of `detect_deadlock`: repeat passes until one marks
nothing (`found` stays `False`), with explicit fuel. -/
def detect_loop (order : List Nat) (m : Nat) (allocation request : List (List Int)) :
    Nat → List Int → List Bool → List Int × List Bool
  | 0, work, finish => (work, finish)
  | fuel + 1, work, finish =>
    let st := detect_pass order m allocation request work finish
    if st.2.2 = true then
      detect_loop order m allocation request fuel st.1 st.2.1
    else
      (st.1, st.2.1)

/-- The function `detect_deadlock` from `app.py`.  `work` starts as `available.copy()`,
`finish` as `[False] * n`; fuel `n + 1` provably reproduces the unbounded
`while True` loop (see `detect_loop_fuel_irrelevant`). -/
def detect_deadlock (n m : Nat) (allocation request : List (List Int))
    (available : List Int) : Bool × List Nat × String :=
  let st := detect_loop (List.range n) m allocation request (n + 1)
      available (List.replicate n false)
  let deadlocked := (List.range n).filter fun i => st.2.getD i false = false
  if deadlocked ≠ [] then
    (true, deadlocked, s!"Deadlock detected in processes: {deadlocked}.")
  else
    (false, [], "No deadlock detected.")

/-- Variant of `detect_deadlock` with the inner loop visiting processes in the order
`order` instead of `range(n)`; used to state order-independence. -/
def detect_deadlock_ord (order : List Nat) (n m : Nat)
    (allocation request : List (List Int)) (available : List Int) :
    Bool × List Nat × String :=
  let st := detect_loop order m allocation request (n + 1)
      available (List.replicate n false)
  let deadlocked := (List.range n).filter fun i => st.2.getD i false = false
  if deadlocked ≠ [] then
    (true, deadlocked, s!"Deadlock detected in processes: {deadlocked}.")
  else
    (false, [], "No deadlock detected.")

/-- Python's `sum(allocation[i])`. -/
def rowSum (allocation : List (List Int)) (i : Nat) : Int :=
  (allocation.getD i []).sum

/-- Python's `min(xs, key=key)`: `none` exactly when `min` raises `ValueError`
(empty iterable); on ties the first-encountered element wins, as in CPython. -/
def minByKey (key : Nat → Int) : List Nat → Option Nat
  | [] => none
  | x :: xs => some (xs.foldl (fun b a => if key a < key b then a else b) x)

def strategy1 : String :=
  "Strategy 1: Terminate one or more deadlocked processes to break the circular wait."

def strategy2 : String :=
  "Strategy 2: Preempt resources from a process and rollback."

def recommendation (victim : Nat) : String :=
  s!"Recommendation: Terminate Process P{victim} (holds fewest resources)."

/-- The function `suggest_resolution` from `app.py`.  The `except ValueError: pass` branch
is the `none` case of `minByKey`. -/
def suggest_resolution (deadlocked : List Nat) (allocation request : List (List Int)) :
    String :=
  if deadlocked.isEmpty then
    "No action required."
  else
    let base := [strategy1, strategy2]
    let suggestions :=
      match minByKey (rowSum allocation) deadlocked with
      | some victim => base ++ [recommendation victim]
      | none => base
    String.intercalate "<br>" suggestions

/-- The running-minimum `foldl` hidden inside `minByKey`: CPython's `min`
keeps the current best on ties, so the first minimal element wins. -/
def minFold (key : Nat → Int) (b : Nat) (xs : List Nat) : Nat :=
  xs.foldl (fun b a => if key a < key b then a else b) b

/-! ### Caller-environment threading (frame property)

`detect_deadlock` receives three caller-owned list objects.  The frame
variant below threads them explicitly through every step of the algorithm,
mirroring which Python objects each statement touches: `available.copy()`
and the two list comprehensions allocate fresh lists, `work = ...` rebinds a
local name, and the only subscript assignment (`finish[i] = True`) targets
the local `finish` list, which is never aliased to a caller object.  Every
step therefore returns the environment it received. -/

/-- The caller-owned objects of one `detect_deadlock` call. -/
structure CallerEnv where
  allocation : List (List Int)
  request : List (List Int)
  available : List Int

/-- One inner-loop iteration, reading the matrices from the environment and
handing the environment back. -/
def passStep_frame (m : Nat) (p : (List Int × List Bool × Bool) × CallerEnv)
    (i : Nat) : (List Int × List Bool × Bool) × CallerEnv :=
  (passStep m p.2.allocation p.2.request p.1 i, p.2)

/-- One full pass with the environment threaded through. -/
def detect_pass_frame (order : List Nat) (m : Nat) (env : CallerEnv)
    (work : List Int) (finish : List Bool) :
    (List Int × List Bool × Bool) × CallerEnv :=
  order.foldl (passStep_frame m) ((work, finish, false), env)

/-- The `while True` loop with the environment threaded through. -/
def detect_loop_frame (order : List Nat) (m : Nat) :
    Nat → CallerEnv → List Int → List Bool → (List Int × List Bool) × CallerEnv
  | 0, env, work, finish => ((work, finish), env)
  | fuel + 1, env, work, finish =>
    let st := detect_pass_frame order m env work finish
    if st.1.2.2 = true then
      detect_loop_frame order m fuel st.2 st.1.1 st.1.2.1
    else
      ((st.1.1, st.1.2.1), st.2)

/-- Variant of `detect_deadlock` with the caller's objects threaded through every step;
returns the result together with the environment as the call leaves it. -/
def detect_deadlock_frame (n m : Nat) (env : CallerEnv) :
    (Bool × List Nat × String) × CallerEnv :=
  let res := detect_loop_frame (List.range n) m (n + 1) env env.available
      (List.replicate n false)
  let deadlocked := (List.range n).filter fun i => res.1.2.getD i false = false
  if deadlocked ≠ [] then
    ((true, deadlocked, s!"Deadlock detected in processes: {deadlocked}."), res.2)
  else
    ((false, [], "No deadlock detected."), res.2)

/-! ## Well-formed states -/

/-- Well-formedness of a state: exactly the conditions certified by
`validate_inputs` returning `(true, "")`. -/
structure ValidState (n m : Nat) (allocation request : List (List Int))
    (available : List Int) : Prop where
  alloc_len : allocation.length = n
  alloc_rows : ∀ row ∈ allocation, row.length = m
  req_len : request.length = n
  req_rows : ∀ row ∈ request, row.length = m
  avail_len : available.length = m
  alloc_nonneg : ∀ row ∈ allocation, ∀ x ∈ row, 0 ≤ x
  req_nonneg : ∀ row ∈ request, ∀ x ∈ row, 0 ≤ x
  avail_nonneg : ∀ x ∈ available, 0 ≤ x

/-- The set of indices currently marked finished. -/
def finishedFinset (finish : List Bool) : Finset Nat :=
  (Finset.range finish.length).filter fun i => finish.getD i false = true

/-- Closure predicate `Finishable i`: process `i` can complete after the processes of some set
`S` of finishable processes have completed and released their allocations.
The final `finish` set of the detection loop is exactly this closure, for any
visitation order — this is the semantic content of order-independence. -/
inductive Finishable (n m : Nat) (allocation request : List (List Int))
    (available : List Int) : Nat → Prop where
  | step (i : Nat) (S : Finset Nat) (hi : i < n)
      (hS : ∀ k ∈ S, Finishable n m allocation request available k)
      (hreq : ∀ j < m, matEntry request i j ≤
        available.getD j 0 + ∑ k ∈ S, matEntry allocation k j) :
      Finishable n m allocation request available i

/-- Loop invariant: `finish` has length `n`, `work` is `available` plus
everything released by the finished processes, and every finished process is
in the closure. -/
structure DetInv (n m : Nat) (allocation request : List (List Int))
    (available : List Int) (work : List Int) (finish : List Bool) : Prop where
  finish_len : finish.length = n
  work_eq : ∀ j, work.getD j 0 =
    available.getD j 0 + ∑ k ∈ finishedFinset finish, matEntry allocation k j
  finished_ok : ∀ k ∈ finishedFinset finish,
    Finishable n m allocation request available k

theorem getD_of_length_le {α : Type _} {l : List α} {i : Nat} (d : α)
    (h : l.length ≤ i) : l.getD i d = d := by
  rw [List.getD_eq_getElem?_getD, List.getElem?_eq_none h]
  rfl

theorem getD_of_lt {α : Type _} (l : List α) (d : α) {i : Nat}
    (h : i < l.length) : l.getD i d = l[i] := by
  rw [List.getD_eq_getElem?_getD, List.getElem?_eq_getElem h]
  rfl

theorem getD_mem {α : Type _} {l : List α} {i : Nat} (d : α)
    (h : i < l.length) : l.getD i d ∈ l := by
  rw [List.getD_eq_getElem?_getD, List.getElem?_eq_getElem h]
  exact List.getElem_mem h

theorem rows_nonneg_entry {mat : List (List Int)}
    (hpos : ∀ row ∈ mat, ∀ x ∈ row, 0 ≤ x) (i j : Nat) :
    0 ≤ matEntry mat i j := by
  unfold matEntry
  by_cases hi : i < mat.length
  · by_cases hj : j < (mat.getD i []).length
    · exact hpos _ (getD_mem [] hi) _ (getD_mem 0 hj)
    · rw [getD_of_length_le 0 (Nat.le_of_not_lt hj)]
  · rw [getD_of_length_le [] (Nat.le_of_not_lt hi)]
    simp

theorem rows_entry_eq_zero {m : Nat} {mat : List (List Int)}
    (hrows : ∀ row ∈ mat, row.length = m) {i j : Nat} (hj : m ≤ j) :
    matEntry mat i j = 0 := by
  unfold matEntry
  by_cases hi : i < mat.length
  · exact getD_of_length_le 0 (le_trans (le_of_eq (hrows _ (getD_mem [] hi))) hj)
  · rw [getD_of_length_le [] (Nat.le_of_not_lt hi)]
    simp

theorem ValidState.matEntry_alloc_nonneg {n m : Nat}
    {allocation request : List (List Int)} {available : List Int}
    (hv : ValidState n m allocation request available) (i j : Nat) :
    0 ≤ matEntry allocation i j :=
  rows_nonneg_entry hv.alloc_nonneg i j

theorem ValidState.matEntry_alloc_zero {n m : Nat}
    {allocation request : List (List Int)} {available : List Int}
    (hv : ValidState n m allocation request available) {i j : Nat} (hj : m ≤ j) :
    matEntry allocation i j = 0 :=
  rows_entry_eq_zero hv.alloc_rows hj

theorem ValidState.avail_getD_zero {n m : Nat}
    {allocation request : List (List Int)} {available : List Int}
    (hv : ValidState n m allocation request available) {j : Nat} (hj : m ≤ j) :
    available.getD j 0 = 0 :=
  getD_of_length_le 0 (le_trans (le_of_eq hv.avail_len) hj)

theorem ValidState.avail_getD_nonneg {n m : Nat}
    {allocation request : List (List Int)} {available : List Int}
    (hv : ValidState n m allocation request available) (j : Nat) :
    0 ≤ available.getD j 0 := by
  by_cases hj : j < available.length
  · exact hv.avail_nonneg _ (getD_mem 0 hj)
  · rw [getD_of_length_le 0 (Nat.le_of_not_lt hj)]

/-- Validation succeeds exactly on well-formed states. -/
theorem validate_inputs_eq_true_iff (n m : Nat)
    (allocation request : List (List Int)) (available : List Int) :
    validate_inputs n m allocation request available = (true, "") ↔
      ValidState n m allocation request available := by
  constructor
  · intro h
    unfold validate_inputs at h
    split_ifs at h with h1 h2 h3 h4 h5
    · simp at h
    · simp at h
    · simp at h
    · simp at h
    · simp at h
    push_neg at h1 h2 h3 h4 h5
    refine ⟨h1.1, h1.2, h2.1, h2.2, h3, ?_, ?_, ?_⟩
    · intro row hrow x hx
      obtain ⟨i, hi, hrowi⟩ := List.mem_iff_getElem.mp hrow
      obtain ⟨j, hj, hxj⟩ := List.mem_iff_getElem.mp hx
      have hij : matEntry allocation i j = x := by
        unfold matEntry
        rw [getD_of_lt _ _ hi, hrowi, getD_of_lt _ _ hj, hxj]
      have hnn := (h4 i (List.mem_range.mpr (h1.1 ▸ hi)) j
        (List.mem_range.mpr ((h1.2 _ hrow) ▸ hj))).1
      exact hij ▸ hnn
    · intro row hrow x hx
      obtain ⟨i, hi, hrowi⟩ := List.mem_iff_getElem.mp hrow
      obtain ⟨j, hj, hxj⟩ := List.mem_iff_getElem.mp hx
      have hij : matEntry request i j = x := by
        unfold matEntry
        rw [getD_of_lt _ _ hi, hrowi, getD_of_lt _ _ hj, hxj]
      have hnn := (h4 i (List.mem_range.mpr (h2.1 ▸ hi)) j
        (List.mem_range.mpr ((h2.2 _ hrow) ▸ hj))).2
      exact hij ▸ hnn
    · exact h5
  · intro hv
    unfold validate_inputs
    have h1 : ¬ (allocation.length ≠ n ∨ ∃ row ∈ allocation, row.length ≠ m) := by
      push_neg
      exact ⟨hv.alloc_len, hv.alloc_rows⟩
    have h2 : ¬ (request.length ≠ n ∨ ∃ row ∈ request, row.length ≠ m) := by
      push_neg
      exact ⟨hv.req_len, hv.req_rows⟩
    have h3 : ¬ available.length ≠ m := by
      push_neg
      exact hv.avail_len
    have h4 : ¬ ∃ i ∈ List.range n, ∃ j ∈ List.range m,
        matEntry allocation i j < 0 ∨ matEntry request i j < 0 := by
      push_neg
      intro i _ j _
      exact ⟨rows_nonneg_entry hv.alloc_nonneg i j,
        rows_nonneg_entry hv.req_nonneg i j⟩
    have h5 : ¬ ∃ val ∈ available, val < 0 := by
      push_neg
      exact fun val hval => hv.avail_nonneg val hval
    rw [if_neg h1, if_neg h2, if_neg h3, if_neg h4, if_neg h5]

/-! ## Mechanics of the detection pass and loop -/

theorem canFinish_iff (m : Nat) (reqRow work : List Int) :
    canFinish m reqRow work = true ↔ ∀ j < m, reqRow.getD j 0 ≤ work.getD j 0 := by
  unfold canFinish
  rw [List.all_eq_true]
  constructor
  · intro h j hj
    exact of_decide_eq_true (h j (List.mem_range.mpr hj))
  · intro h j hj
    exact decide_eq_true (h j (List.mem_range.mp hj))

theorem releaseWork_getD_lt (m : Nat) (work allocRow : List Int) {j : Nat}
    (hj : j < m) :
    (releaseWork m work allocRow).getD j 0 = work.getD j 0 + allocRow.getD j 0 := by
  unfold releaseWork
  have hlen : j < ((List.range m).map fun j => work.getD j 0 + allocRow.getD j 0).length := by
    simpa using hj
  rw [getD_of_lt _ _ hlen, List.getElem_map, List.getElem_range]

theorem releaseWork_getD_ge (m : Nat) (work allocRow : List Int) {j : Nat}
    (hj : m ≤ j) : (releaseWork m work allocRow).getD j 0 = 0 := by
  unfold releaseWork
  apply getD_of_length_le
  simpa using hj

theorem getD_set {α : Type _} (l : List α) (i k : Nat) (b d : α) :
    (l.set i b).getD k d =
      if i = k ∧ i < l.length then b else l.getD k d := by
  by_cases hik : i = k
  · subst hik
    by_cases hil : i < l.length
    · rw [if_pos ⟨rfl, hil⟩, List.getD_eq_getElem?_getD, List.getElem?_set]
      simp [hil]
    · rw [if_neg (fun h => hil h.2), List.getD_eq_getElem?_getD, List.getElem?_set,
        if_pos rfl, if_neg hil, List.getD_eq_getElem?_getD,
        List.getElem?_eq_none (Nat.le_of_not_lt hil)]
  · rw [if_neg (fun h => hik h.1), List.getD_eq_getElem?_getD, List.getElem?_set,
      if_neg hik, List.getD_eq_getElem?_getD]

theorem passStep_finish_length (m : Nat) (allocation request : List (List Int))
    (st : List Int × List Bool × Bool) (i : Nat) :
    (passStep m allocation request st i).2.1.length = st.2.1.length := by
  unfold passStep
  split
  · exact List.length_set st.2.1 i true
  · rfl

theorem passStep_found_mono (m : Nat) (allocation request : List (List Int))
    (st : List Int × List Bool × Bool) (i : Nat) (h : st.2.2 = true) :
    (passStep m allocation request st i).2.2 = true := by
  unfold passStep
  split
  · rfl
  · exact h

theorem passStep_finish_mono (m : Nat) (allocation request : List (List Int))
    (st : List Int × List Bool × Bool) (i k : Nat)
    (h : st.2.1.getD k false = true) :
    (passStep m allocation request st i).2.1.getD k false = true := by
  unfold passStep
  split
  · rw [getD_set]
    split
    · rfl
    · exact h
  · exact h


theorem mem_finishedFinset {finish : List Bool} {i : Nat} :
    i ∈ finishedFinset finish ↔ i < finish.length ∧ finish.getD i false = true := by
  unfold finishedFinset
  simp [Finset.mem_filter, Finset.mem_range]

theorem finishedFinset_card_le (finish : List Bool) :
    (finishedFinset finish).card ≤ finish.length := by
  calc (finishedFinset finish).card
      ≤ (Finset.range finish.length).card := Finset.card_le_card (Finset.filter_subset _ _)
    _ = finish.length := Finset.card_range _

theorem finishedFinset_set {finish : List Bool} {i : Nat} (hi : i < finish.length) :
    finishedFinset (finish.set i true) = insert i (finishedFinset finish) := by
  ext k
  simp only [mem_finishedFinset, List.length_set, Finset.mem_insert, getD_set]
  by_cases hik : i = k
  · subst hik
    simp [hi]
  · simp [hik, Ne.symm hik]

theorem foldl_passStep_found_mono (m : Nat) (allocation request : List (List Int))
    (l : List Nat) (st : List Int × List Bool × Bool) (h : st.2.2 = true) :
    (l.foldl (passStep m allocation request) st).2.2 = true := by
  induction l generalizing st with
  | nil => exact h
  | cons i l ih =>
    rw [List.foldl_cons]
    exact ih _ (passStep_found_mono m allocation request st i h)

theorem foldl_passStep_finish_length (m : Nat) (allocation request : List (List Int))
    (l : List Nat) (st : List Int × List Bool × Bool) :
    (l.foldl (passStep m allocation request) st).2.1.length = st.2.1.length := by
  induction l generalizing st with
  | nil => rfl
  | cons i l ih =>
    rw [List.foldl_cons, ih, passStep_finish_length]

theorem foldl_passStep_finish_mono (m : Nat) (allocation request : List (List Int))
    (l : List Nat) (st : List Int × List Bool × Bool) (k : Nat)
    (h : st.2.1.getD k false = true) :
    (l.foldl (passStep m allocation request) st).2.1.getD k false = true := by
  induction l generalizing st with
  | nil => exact h
  | cons i l ih =>
    rw [List.foldl_cons]
    exact ih _ (passStep_finish_mono m allocation request st i k h)

theorem foldl_passStep_finset_subset (m : Nat) (allocation request : List (List Int))
    (l : List Nat) (st : List Int × List Bool × Bool) :
    finishedFinset st.2.1 ⊆
      finishedFinset (l.foldl (passStep m allocation request) st).2.1 := by
  intro k hk
  rw [mem_finishedFinset] at hk ⊢
  refine ⟨?_, foldl_passStep_finish_mono m allocation request l st k hk.2⟩
  rw [foldl_passStep_finish_length]
  exact hk.1

/-- A pass that marks nothing leaves the state unchanged, and every visited
process failed its guard. -/
theorem foldl_passStep_of_found_false (m : Nat) (allocation request : List (List Int))
    (l : List Nat) (st : List Int × List Bool × Bool)
    (h : (l.foldl (passStep m allocation request) st).2.2 = false) :
    l.foldl (passStep m allocation request) st = st ∧
      ∀ i ∈ l, ¬ (st.2.1.getD i false = false ∧
        canFinish m (request.getD i []) st.1 = true) := by
  induction l generalizing st with
  | nil => exact ⟨rfl, by simp⟩
  | cons i l ih =>
    rw [List.foldl_cons] at h ⊢
    by_cases hc : st.2.1.getD i false = false ∧
        canFinish m (request.getD i []) st.1 = true
    · exfalso
      have hstep : (passStep m allocation request st i).2.2 = true := by
        unfold passStep
        rw [if_pos hc]
      rw [foldl_passStep_found_mono m allocation request l _ hstep] at h
      simp at h
    · have hstep : passStep m allocation request st i = st := by
        unfold passStep
        rw [if_neg hc]
      rw [hstep] at h ⊢
      obtain ⟨heq, hall⟩ := ih st h
      refine ⟨heq, ?_⟩
      intro k hk
      rcases List.mem_cons.mp hk with hk | hk
      · exact hk ▸ hc
      · exact hall k hk

/-- A pass that reports `found = True` strictly enlarges the finished set. -/
theorem foldl_passStep_card_lt (m : Nat) (allocation request : List (List Int))
    (l : List Nat) (st : List Int × List Bool × Bool)
    (hl : ∀ i ∈ l, i < st.2.1.length) (hst : st.2.2 = false)
    (h : (l.foldl (passStep m allocation request) st).2.2 = true) :
    (finishedFinset st.2.1).card <
      (finishedFinset (l.foldl (passStep m allocation request) st).2.1).card := by
  induction l generalizing st with
  | nil => exact absurd (hst ▸ h) Bool.false_ne_true
  | cons i l ih =>
    rw [List.foldl_cons] at h ⊢
    by_cases hc : st.2.1.getD i false = false ∧
        canFinish m (request.getD i []) st.1 = true
    · have hstep : passStep m allocation request st i =
          (releaseWork m st.1 (allocation.getD i []), st.2.1.set i true, true) := by
        unfold passStep
        rw [if_pos hc]
      rw [hstep] at h ⊢
      have hi : i < st.2.1.length := hl i (List.mem_cons_self i l)
      have hins : finishedFinset (st.2.1.set i true) =
          insert i (finishedFinset st.2.1) := finishedFinset_set hi
      have hnotmem : i ∉ finishedFinset st.2.1 := by
        rw [mem_finishedFinset]
        intro hmem
        rw [hc.1] at hmem
        exact Bool.false_ne_true hmem.2
      have hcard : (finishedFinset st.2.1).card <
          (finishedFinset (st.2.1.set i true)).card := by
        rw [hins, Finset.card_insert_of_not_mem hnotmem]
        omega
      have hsub := foldl_passStep_finset_subset m allocation request l
        (releaseWork m st.1 (allocation.getD i []), st.2.1.set i true, true)
      exact lt_of_lt_of_le hcard (Finset.card_le_card hsub)
    · have hstep : passStep m allocation request st i = st := by
        unfold passStep
        rw [if_neg hc]
      rw [hstep] at h ⊢
      exact ih st (fun k hk => hl k (List.mem_cons_of_mem i hk)) hst h

/-! ### The outer `while True` loop -/

theorem detect_loop_finish_length (order : List Nat) (m : Nat)
    (allocation request : List (List Int)) (fuel : Nat) (work : List Int)
    (finish : List Bool) :
    (detect_loop order m allocation request fuel work finish).2.length =
      finish.length := by
  induction fuel generalizing work finish with
  | zero => rfl
  | succ fuel ih =>
    unfold detect_loop
    simp only
    split
    · rw [ih]
      exact foldl_passStep_finish_length m allocation request order (work, finish, false)
    · exact foldl_passStep_finish_length m allocation request order (work, finish, false)

/-- With `finish.length < fuel + card(finished)`, the fuelled loop has already
reached the fixed point: running the pass on its result changes nothing. -/
theorem detect_loop_fixpoint (order : List Nat) (m : Nat)
    (allocation request : List (List Int)) (fuel : Nat) (work : List Int)
    (finish : List Bool)
    (hfuel : finish.length < fuel + (finishedFinset finish).card)
    (hord : ∀ i ∈ order, i < finish.length) :
    detect_pass order m allocation request
        (detect_loop order m allocation request fuel work finish).1
        (detect_loop order m allocation request fuel work finish).2 =
      ((detect_loop order m allocation request fuel work finish).1,
        (detect_loop order m allocation request fuel work finish).2, false) := by
  induction fuel generalizing work finish with
  | zero =>
    exact absurd hfuel (by simpa using finishedFinset_card_le finish)
  | succ fuel ih =>
    unfold detect_loop
    simp only
    split
    · rename_i hfound
      set st := detect_pass order m allocation request work finish with hst
      have hlen : st.2.1.length = finish.length :=
        foldl_passStep_finish_length m allocation request order (work, finish, false)
    -- the pass made progress: the finished set grew by at least one
      have hcard : (finishedFinset finish).card < (finishedFinset st.2.1).card :=
        foldl_passStep_card_lt m allocation request order (work, finish, false)
          hord rfl hfound
      have := ih st.1 st.2.1 (by rw [hlen]; omega) (by rw [hlen]; exact hord)
      exact this
    · rename_i hfound
      have hfalse : (detect_pass order m allocation request work finish).2.2 = false := by
        revert hfound
        cases (detect_pass order m allocation request work finish).2.2 <;> simp
      have heq : detect_pass order m allocation request work finish =
          (work, finish, false) :=
        (foldl_passStep_of_found_false m allocation request order
          (work, finish, false) hfalse).1
      rw [heq]
      exact heq

/-- The fuel is irrelevant once it exceeds the number of processes that can
still finish: the Python `while True` loop terminates and `n + 1` rounds of
fuel reproduce it exactly. -/
theorem detect_loop_fuel_irrelevant (order : List Nat) (m : Nat)
    (allocation request : List (List Int)) (fuel fuel' : Nat) (work : List Int)
    (finish : List Bool)
    (hfuel : finish.length < fuel + (finishedFinset finish).card)
    (hfuel' : finish.length < fuel' + (finishedFinset finish).card)
    (hord : ∀ i ∈ order, i < finish.length) :
    detect_loop order m allocation request fuel work finish =
      detect_loop order m allocation request fuel' work finish := by
  induction fuel generalizing fuel' work finish with
  | zero =>
    exact absurd hfuel (by simpa using finishedFinset_card_le finish)
  | succ fuel ih =>
    cases fuel' with
    | zero =>
      exact absurd hfuel' (by simpa using finishedFinset_card_le finish)
    | succ fuel' =>
      unfold detect_loop
      simp only
      split
      · rename_i hfound
        set st := detect_pass order m allocation request work finish with hst
        have hlen : st.2.1.length = finish.length :=
          foldl_passStep_finish_length m allocation request order (work, finish, false)
        have hcard : (finishedFinset finish).card < (finishedFinset st.2.1).card :=
          foldl_passStep_card_lt m allocation request order (work, finish, false)
            hord rfl hfound
        exact ih fuel' st.1 st.2.1 (by rw [hlen]; omega) (by rw [hlen]; omega)
          (by rw [hlen]; exact hord)
      · rfl

/-! ## Closure characterization of the fixed point -/

theorem finishedFinset_replicate_false (n : Nat) :
    finishedFinset (List.replicate n false) = ∅ := by
  ext k
  simp only [mem_finishedFinset, Finset.not_mem_empty, iff_false, not_and]
  intro _
  rw [List.getD_eq_getElem?_getD, List.getElem?_replicate]
  split <;> simp

theorem detInv_init (n m : Nat) (allocation request : List (List Int))
    (available : List Int) :
    DetInv n m allocation request available available (List.replicate n false) where
  finish_len := List.length_replicate n false
  work_eq := by
    intro j
    rw [finishedFinset_replicate_false, Finset.sum_empty, add_zero]
  finished_ok := by
    rw [finishedFinset_replicate_false]
    simp

theorem getD_eq_true_lt {finish : List Bool} {k : Nat}
    (h : finish.getD k false = true) : k < finish.length := by
  by_contra hk
  rw [getD_of_length_le false (Nat.le_of_not_lt hk)] at h
  exact Bool.false_ne_true h

theorem passStep_detInv {n m : Nat} {allocation request : List (List Int)}
    {available : List Int} (hv : ValidState n m allocation request available)
    (st : List Int × List Bool × Bool) (i : Nat) (hi : i < n)
    (hinv : DetInv n m allocation request available st.1 st.2.1) :
    DetInv n m allocation request available
      (passStep m allocation request st i).1
      (passStep m allocation request st i).2.1 := by
  unfold passStep
  split
  case isTrue hc =>
    have hlen : i < st.2.1.length := hinv.finish_len ▸ hi
    have hnot : i ∉ finishedFinset st.2.1 := by
      rw [mem_finishedFinset]
      rintro ⟨-, htrue⟩
      rw [hc.1] at htrue
      exact Bool.false_ne_true htrue
    have hins : finishedFinset (st.2.1.set i true) =
        insert i (finishedFinset st.2.1) := finishedFinset_set hlen
    refine ⟨?_, ?_, ?_⟩
    · rw [List.length_set]
      exact hinv.finish_len
    · intro j
      by_cases hj : j < m
      · rw [releaseWork_getD_lt m _ _ hj, hins, Finset.sum_insert hnot,
          hinv.work_eq j]
        have hme : matEntry allocation i j = (allocation.getD i []).getD j 0 := rfl
        rw [← hme]
        ring
      · rw [releaseWork_getD_ge m _ _ (Nat.le_of_not_lt hj),
          hv.avail_getD_zero (Nat.le_of_not_lt hj), hins,
          Finset.sum_eq_zero (fun k _ => hv.matEntry_alloc_zero (Nat.le_of_not_lt hj)),
          add_zero]
    · intro k hk
      rw [hins, Finset.mem_insert] at hk
      rcases hk with hk | hk
      · subst hk
        refine Finishable.step k (finishedFinset st.2.1) hi hinv.finished_ok ?_
        intro j hj
        have hcf := (canFinish_iff m (request.getD k []) st.1).mp hc.2 j hj
        rw [hinv.work_eq j] at hcf
        exact hcf
      · exact hinv.finished_ok k hk
  case isFalse => exact hinv

theorem foldl_passStep_detInv {n m : Nat} {allocation request : List (List Int)}
    {available : List Int} (hv : ValidState n m allocation request available)
    (l : List Nat) (hl : ∀ i ∈ l, i < n) (st : List Int × List Bool × Bool)
    (hinv : DetInv n m allocation request available st.1 st.2.1) :
    DetInv n m allocation request available
      (l.foldl (passStep m allocation request) st).1
      (l.foldl (passStep m allocation request) st).2.1 := by
  induction l generalizing st with
  | nil => exact hinv
  | cons i l ih =>
    rw [List.foldl_cons]
    exact ih (fun k hk => hl k (List.mem_cons_of_mem i hk)) _
      (passStep_detInv hv st i (hl i (List.mem_cons_self i l)) hinv)

theorem detect_loop_detInv {n m : Nat} {allocation request : List (List Int)}
    {available : List Int} (hv : ValidState n m allocation request available)
    (order : List Nat) (hord : ∀ i ∈ order, i < n) (fuel : Nat)
    (work : List Int) (finish : List Bool)
    (hinv : DetInv n m allocation request available work finish) :
    DetInv n m allocation request available
      (detect_loop order m allocation request fuel work finish).1
      (detect_loop order m allocation request fuel work finish).2 := by
  induction fuel generalizing work finish with
  | zero => exact hinv
  | succ fuel ih =>
    unfold detect_loop
    simp only
    have hpass := foldl_passStep_detInv hv order hord (work, finish, false) hinv
    split
    · exact ih _ _ hpass
    · exact hpass

/-- At a state where a full pass marks nothing, the finished flags are exactly
the closure (for processes in range). -/
theorem fixpoint_finished_iff {n m : Nat} {allocation request : List (List Int)}
    {available : List Int} (hv : ValidState n m allocation request available)
    {work : List Int} {finish : List Bool}
    (hinv : DetInv n m allocation request available work finish)
    (hfix : ∀ i < n, ¬ (finish.getD i false = false ∧
      canFinish m (request.getD i []) work = true)) :
    ∀ i < n, (finish.getD i false = true ↔
      Finishable n m allocation request available i) := by
  intro i hi
  constructor
  · intro h
    exact hinv.finished_ok i (mem_finishedFinset.mpr ⟨hinv.finish_len ▸ hi, h⟩)
  · intro hfin
    clear hi
    induction hfin with
    | step i S hi' hS hreq ih =>
      have hsub : S ⊆ finishedFinset finish := by
        intro k hk
        have hk' : finish.getD k false = true := ih k hk
        exact mem_finishedFinset.mpr ⟨getD_eq_true_lt hk', hk'⟩
      have hcf : canFinish m (request.getD i []) work = true := by
        rw [canFinish_iff]
        intro j hj
        calc (request.getD i []).getD j 0
            = matEntry request i j := rfl
          _ ≤ available.getD j 0 + ∑ k ∈ S, matEntry allocation k j := hreq j hj
          _ ≤ available.getD j 0 +
              ∑ k ∈ finishedFinset finish, matEntry allocation k j :=
                add_le_add_left (Finset.sum_le_sum_of_subset_of_nonneg hsub
                  (fun k _ _ => hv.matEntry_alloc_nonneg k j)) _
          _ = work.getD j 0 := (hinv.work_eq j).symm
      cases hfb : finish.getD i false with
      | true => rfl
      | false => exact absurd ⟨hfb, hcf⟩ (hfix i hi')

/-- After a full run of the loop (any covering order of in-range indices, fuel
`n + 1`), the finished flags are exactly the closure. -/
theorem detect_loop_run_finished_iff {n m : Nat}
    {allocation request : List (List Int)} {available : List Int}
    (hv : ValidState n m allocation request available)
    (order : List Nat) (hord : ∀ i ∈ order, i < n) (hcov : ∀ i < n, i ∈ order) :
    ∀ i < n,
      ((detect_loop order m allocation request (n + 1) available
          (List.replicate n false)).2.getD i false = true ↔
        Finishable n m allocation request available i) := by
  have hlen0 : (List.replicate n false).length = n := List.length_replicate n false
  have hinv := detect_loop_detInv hv order hord (n + 1) available
    (List.replicate n false) (detInv_init n m allocation request available)
  have hfuel : (List.replicate n false).length <
      (n + 1) + (finishedFinset (List.replicate n false)).card := by
    rw [hlen0]
    omega
  have hordlen : ∀ i ∈ order, i < (List.replicate n false).length := by
    rw [hlen0]
    exact hord
  have hfix := detect_loop_fixpoint order m allocation request (n + 1) available
    (List.replicate n false) hfuel hordlen
  have hfalse : (detect_pass order m allocation request
      (detect_loop order m allocation request (n + 1) available
        (List.replicate n false)).1
      (detect_loop order m allocation request (n + 1) available
        (List.replicate n false)).2).2.2 = false := by
    rw [hfix]
  obtain ⟨-, hguards⟩ := foldl_passStep_of_found_false m allocation request order
    (_, _, false) hfalse
  exact fixpoint_finished_iff hv hinv (fun i hi => hguards i (hcov i hi))

/-- Order-independence, in terms of the full detector: any visitation order
that is a permutation of `range n` yields the identical result triple. -/
theorem detect_deadlock_ord_eq {n m : Nat}
    {allocation request : List (List Int)} {available : List Int}
    (hval : validate_inputs n m allocation request available = (true, ""))
    (order : List Nat) (hperm : order.Perm (List.range n)) :
    detect_deadlock_ord order n m allocation request available =
      detect_deadlock n m allocation request available := by
  have hv := (validate_inputs_eq_true_iff n m allocation request available).mp hval
  have hord : ∀ i ∈ order, i < n :=
    fun i hi => List.mem_range.mp (hperm.mem_iff.mp hi)
  have hcov : ∀ i < n, i ∈ order :=
    fun i hi => hperm.mem_iff.mpr (List.mem_range.mpr hi)
  have h1 := detect_loop_run_finished_iff hv order hord hcov
  have h2 := detect_loop_run_finished_iff hv (List.range n)
    (fun i hi => List.mem_range.mp hi) (fun i hi => List.mem_range.mpr hi)
  have hfilter : (List.range n).filter
      (fun i => (detect_loop order m allocation request (n + 1) available
        (List.replicate n false)).2.getD i false = false) =
      (List.range n).filter
      (fun i => (detect_loop (List.range n) m allocation request (n + 1) available
        (List.replicate n false)).2.getD i false = false) := by
    apply List.filter_congr
    intro i hi
    have hb1 := h1 i (List.mem_range.mp hi)
    have hb2 := h2 i (List.mem_range.mp hi)
    rw [decide_eq_decide]
    constructor
    · intro hx
      cases hy : (detect_loop (List.range n) m allocation request (n + 1) available
          (List.replicate n false)).2.getD i false
      · rfl
      · exact absurd (hb1.mpr (hb2.mp hy)) (by rw [Bool.not_eq_true]; exact hx)
    · intro hy
      cases hx : (detect_loop order m allocation request (n + 1) available
          (List.replicate n false)).2.getD i false
      · rfl
      · exact absurd (hb2.mpr (hb1.mp hx)) (by rw [Bool.not_eq_true]; exact hy)
  unfold detect_deadlock_ord detect_deadlock
  simp only
  rw [hfilter]

/-! ## Frame equivalence: the threaded detector returns its environment -/

theorem foldl_passStep_frame_eq (m : Nat) (env : CallerEnv) (order : List Nat)
    (st : List Int × List Bool × Bool) :
    order.foldl (passStep_frame m) (st, env) =
      (order.foldl (passStep m env.allocation env.request) st, env) := by
  induction order generalizing st with
  | nil => rfl
  | cons i l ih =>
    rw [List.foldl_cons, List.foldl_cons]
    exact ih _

theorem detect_pass_frame_eq (order : List Nat) (m : Nat) (env : CallerEnv)
    (work : List Int) (finish : List Bool) :
    detect_pass_frame order m env work finish =
      (detect_pass order m env.allocation env.request work finish, env) :=
  foldl_passStep_frame_eq m env order (work, finish, false)

theorem detect_loop_frame_eq (order : List Nat) (m : Nat) (fuel : Nat)
    (env : CallerEnv) (work : List Int) (finish : List Bool) :
    detect_loop_frame order m fuel env work finish =
      (detect_loop order m env.allocation env.request fuel work finish, env) := by
  induction fuel generalizing work finish with
  | zero => rfl
  | succ fuel ih =>
    unfold detect_loop_frame detect_loop
    simp only
    rw [detect_pass_frame_eq]
    by_cases hc : (detect_pass order m env.allocation env.request work finish).2.2 = true
    · rw [if_pos hc, if_pos hc]
      exact ih _ _
    · rw [if_neg hc, if_neg hc]

theorem detect_deadlock_frame_eq (n m : Nat) (env : CallerEnv) :
    detect_deadlock_frame n m env =
      (detect_deadlock n m env.allocation env.request env.available, env) := by
  unfold detect_deadlock_frame detect_deadlock
  rw [detect_loop_frame_eq]
  by_cases hd : (List.range n).filter
      (fun i => (detect_loop (List.range n) m env.allocation env.request (n + 1)
        env.available (List.replicate n false)).2.getD i false = false) ≠ []
  · rw [if_pos hd, if_pos hd]
  · rw [if_neg hd, if_neg hd]

/-! ## The running minimum of `suggest_resolution` -/

theorem minByKey_cons (key : Nat → Int) (x : Nat) (xs : List Nat) :
    minByKey key (x :: xs) = some (minFold key x xs) := rfl

theorem minFold_cons (key : Nat → Int) (b a : Nat) (xs : List Nat) :
    minFold key b (a :: xs) = minFold key (if key a < key b then a else b) xs := rfl

theorem minFold_le (key : Nat → Int) (xs : List Nat) (b : Nat) :
    key (minFold key b xs) ≤ key b ∧
      ∀ k ∈ xs, key (minFold key b xs) ≤ key k := by
  induction xs generalizing b with
  | nil => exact ⟨le_refl _, fun k hk => absurd hk (List.not_mem_nil k)⟩
  | cons a xs ih =>
    rw [minFold_cons]
    obtain ⟨h1, h2⟩ := ih (if key a < key b then a else b)
    have hb : key (if key a < key b then a else b) ≤ key b := by
      split
      · exact le_of_lt ‹_›
      · exact le_refl _
    have ha : key (if key a < key b then a else b) ≤ key a := by
      split
      · exact le_refl _
      · exact le_of_not_lt ‹_›
    refine ⟨le_trans h1 hb, ?_⟩
    intro k hk
    rcases List.mem_cons.mp hk with rfl | hk
    · exact le_trans h1 ha
    · exact h2 k hk

theorem minFold_mem (key : Nat → Int) (xs : List Nat) (b : Nat) :
    minFold key b xs = b ∨ minFold key b xs ∈ xs := by
  induction xs generalizing b with
  | nil => exact Or.inl rfl
  | cons a xs ih =>
    rw [minFold_cons]
    rcases ih (if key a < key b then a else b) with h | h
    · rw [h]
      split
      · exact Or.inr (List.mem_cons_self a xs)
      · exact Or.inl rfl
    · exact Or.inr (List.mem_cons_of_mem a h)

/-- On a strictly ascending list, the running minimum either strictly beats
`k`'s key or sits at an index `≤ k`: ties go to the smallest index. -/
theorem minFold_tie (key : Nat → Int) (xs : List Nat) (b : Nat)
    (hsort : (b :: xs).Sorted (· < ·)) :
    ∀ k ∈ b :: xs, key (minFold key b xs) < key k ∨ minFold key b xs ≤ k := by
  induction xs generalizing b with
  | nil =>
    intro k hk
    rcases List.mem_singleton.mp hk with rfl
    exact Or.inr (le_refl _)
  | cons a xs ih =>
    obtain ⟨hba, hsort'⟩ := List.sorted_cons.mp hsort
    have hb_lt_a : b < a := hba a (List.mem_cons_self a xs)
    have hsort'' : ((if key a < key b then a else b) :: xs).Sorted (· < ·) := by
      rw [List.sorted_cons]
      obtain ⟨hax, hsx⟩ := List.sorted_cons.mp hsort'
      refine ⟨?_, hsx⟩
      intro x hx
      split
      · exact hax x hx
      · exact lt_trans hb_lt_a (hax x hx)
    have ihh := ih (if key a < key b then a else b) hsort''
    intro k hk
    rw [minFold_cons]
    rcases List.mem_cons.mp hk with hkb | hk2
    · rw [hkb]
      by_cases hab : key a < key b
      · left
        have h1 := (minFold_le key xs (if key a < key b then a else b)).1
        rw [if_pos hab] at h1 ⊢
        exact lt_of_le_of_lt h1 hab
      · have hh := ihh (if key a < key b then a else b)
          (List.mem_cons_self _ _)
        rw [if_neg hab] at hh ⊢
        exact hh
    · rcases List.mem_cons.mp hk2 with hka | hk3
      · rw [hka]
        by_cases hab : key a < key b
        · have hh := ihh (if key a < key b then a else b)
            (List.mem_cons_self _ _)
          rw [if_pos hab] at hh ⊢
          exact hh
        · have hh := ihh (if key a < key b then a else b)
            (List.mem_cons_self _ _)
          rw [if_neg hab] at hh ⊢
          rcases hh with h | h
          · exact Or.inl (lt_of_lt_of_le h (le_of_not_lt hab))
          · exact Or.inr (le_trans h (le_of_lt hb_lt_a))
      · exact ihh k (List.mem_cons_of_mem _ hk3)

/-! ## Work-vector monotonicity helpers -/

theorem passStep_work_mono {m : Nat} {allocation request : List (List Int)}
    (hA : ∀ i j, 0 ≤ matEntry allocation i j)
    (st : List Int × List Bool × Bool) (i : Nat) {j : Nat} (hj : j < m) :
    st.1.getD j 0 ≤ (passStep m allocation request st i).1.getD j 0 := by
  unfold passStep
  split
  · simp only
    rw [releaseWork_getD_lt m _ _ hj]
    have hnn := hA i j
    unfold matEntry at hnn
    exact le_add_of_nonneg_right hnn
  · exact le_refl _

theorem foldl_passStep_work_mono {m : Nat} {allocation request : List (List Int)}
    (hA : ∀ i j, 0 ≤ matEntry allocation i j)
    (l : List Nat) (st : List Int × List Bool × Bool) {j : Nat} (hj : j < m) :
    st.1.getD j 0 ≤ (l.foldl (passStep m allocation request) st).1.getD j 0 := by
  induction l generalizing st with
  | nil => exact le_refl _
  | cons i l ih =>
    rw [List.foldl_cons]
    exact le_trans (passStep_work_mono hA st i hj) (ih _)

theorem detect_loop_work_mono {m : Nat} {allocation request : List (List Int)}
    (hA : ∀ i j, 0 ≤ matEntry allocation i j) (order : List Nat) (fuel : Nat)
    (work : List Int) (finish : List Bool) {j : Nat} (hj : j < m) :
    work.getD j 0 ≤
      (detect_loop order m allocation request fuel work finish).1.getD j 0 := by
  induction fuel generalizing work finish with
  | zero => exact le_refl _
  | succ fuel ih =>
    unfold detect_loop
    simp only
    split
    · exact le_trans
        (foldl_passStep_work_mono hA order (work, finish, false) hj) (ih _ _)
    · exact foldl_passStep_work_mono hA order (work, finish, false) hj

/-! ## Claim theorems -/

/-- C1: For every valid state, running the detection fixed-point computation
with processes visited in any permutation of the index order yields the same
final finish set, and therefore the same `deadlockedProcesses` list (and the
same full result triple), as the index-order iteration of `detect_deadlock`. -/
theorem detect_deadlock_order_independent (n m : Nat)
    (allocation request : List (List Int)) (available : List Int)
    (order : List Nat)
    (hval : validate_inputs n m allocation request available = (true, ""))
    (hperm : order.Perm (List.range n)) :
    detect_deadlock_ord order n m allocation request available =
      detect_deadlock n m allocation request available :=
  detect_deadlock_ord_eq hval order hperm

/-- Witness for C1: visiting the two processes of the circular-wait state in
reversed order produces the identical result. -/
theorem detect_deadlock_order_independent_witness :
    validate_inputs 2 2 [[1, 0], [0, 1]] [[0, 1], [1, 0]] [0, 0] = (true, "") ∧
    ([1, 0] : List Nat).Perm (List.range 2) ∧
    detect_deadlock_ord [1, 0] 2 2 [[1, 0], [0, 1]] [[0, 1], [1, 0]] [0, 0] =
      detect_deadlock 2 2 [[1, 0], [0, 1]] [[0, 1], [1, 0]] [0, 0] :=
  ⟨by decide, by decide,
    detect_deadlock_order_independent 2 2 [[1, 0], [0, 1]] [[0, 1], [1, 0]]
      [0, 0] [1, 0] (by decide) (by decide)⟩

/-- C2: For a non-empty `deadlockedProcesses` list (an ascending list of
indices, as `detect_deadlock` produces) whose indices lie inside the
allocation matrix, `suggest_resolution` recommends as victim the deadlocked
process with the smallest allocation row sum, ties broken by smallest index. -/
theorem suggest_resolution_victim_heuristic (deadlocked : List Nat)
    (allocation request : List (List Int))
    (hne : deadlocked ≠ []) (hsort : deadlocked.Sorted (· < ·))
    (hcov : ∀ k ∈ deadlocked, k < allocation.length) :
    ∃ victim, minByKey (rowSum allocation) deadlocked = some victim ∧
      victim ∈ deadlocked ∧
      (∀ k ∈ deadlocked, rowSum allocation victim ≤ rowSum allocation k) ∧
      (∀ k ∈ deadlocked, rowSum allocation k = rowSum allocation victim →
        victim ≤ k) ∧
      suggest_resolution deadlocked allocation request =
        String.intercalate "<br>" [strategy1, strategy2, recommendation victim] := by
  cases deadlocked with
  | nil => exact absurd rfl hne
  | cons x xs =>
    refine ⟨minFold (rowSum allocation) x xs, minByKey_cons _ x xs, ?_, ?_, ?_, ?_⟩
    · rcases minFold_mem (rowSum allocation) xs x with h | h
      · rw [h]
        exact List.mem_cons_self x xs
      · exact List.mem_cons_of_mem x h
    · intro k hk
      rcases List.mem_cons.mp hk with hkx | hk
      · rw [hkx]
        exact (minFold_le _ xs x).1
      · exact (minFold_le _ xs x).2 k hk
    · intro k hk hkey
      rcases minFold_tie (rowSum allocation) xs x hsort k hk with h | h
      · rw [hkey] at h
        exact absurd h (lt_irrefl _)
      · exact h
    · rfl

/-- Witness for C2: spec scenario 3 — deadlocked set `{0, 1}`, rows `[1,0]`
and `[0,1]` both summing to `1`; the tie goes to process 0. -/
theorem suggest_resolution_victim_heuristic_witness :
    (([0, 1] : List Nat) ≠ [] ∧ ([0, 1] : List Nat).Sorted (· < ·) ∧
      ∀ k ∈ ([0, 1] : List Nat), k < ([[1, 0], [0, 1]] : List (List Int)).length) ∧
    (∃ victim, minByKey (rowSum [[1, 0], [0, 1]]) [0, 1] = some victim ∧
      victim ∈ ([0, 1] : List Nat) ∧
      (∀ k ∈ ([0, 1] : List Nat),
        rowSum [[1, 0], [0, 1]] victim ≤ rowSum [[1, 0], [0, 1]] k) ∧
      (∀ k ∈ ([0, 1] : List Nat),
        rowSum [[1, 0], [0, 1]] k = rowSum [[1, 0], [0, 1]] victim → victim ≤ k) ∧
      suggest_resolution [0, 1] [[1, 0], [0, 1]] [[0, 1], [1, 0]] =
        String.intercalate "<br>" [strategy1, strategy2, recommendation victim]) ∧
    suggest_resolution [0, 1] [[1, 0], [0, 1]] [[0, 1], [1, 0]] =
      String.intercalate "<br>" [strategy1, strategy2, recommendation 0] :=
  ⟨⟨by decide, by decide, by decide⟩,
    suggest_resolution_victim_heuristic [0, 1] [[1, 0], [0, 1]] [[0, 1], [1, 0]]
      (by decide) (by decide) (by decide),
    by decide⟩

/-- C3: On a valid state with no processes or no resource classes,
`detect_deadlock` reports no deadlock with an empty list. -/
theorem detect_deadlock_trivial_state (n m : Nat)
    (allocation request : List (List Int)) (available : List Int)
    (hval : validate_inputs n m allocation request available = (true, ""))
    (hnm : n = 0 ∨ m = 0) :
    detect_deadlock n m allocation request available =
      (false, [], "No deadlock detected.") := by
  have hv := (validate_inputs_eq_true_iff n m allocation request available).mp hval
  have h2 := detect_loop_run_finished_iff hv (List.range n)
    (fun i hi => List.mem_range.mp hi) (fun i hi => List.mem_range.mpr hi)
  have hfin : ∀ i < n,
      (detect_loop (List.range n) m allocation request (n + 1) available
        (List.replicate n false)).2.getD i false = true := by
    intro i hi
    rcases hnm with hn | hm
    · omega
    · refine (h2 i hi).mpr (Finishable.step i ∅ hi (by simp) ?_)
      intro j hj
      rw [hm] at hj
      exact absurd hj (Nat.not_lt_zero j)
  have hfilter : (List.range n).filter
      (fun i => (detect_loop (List.range n) m allocation request (n + 1) available
        (List.replicate n false)).2.getD i false = false) = [] := by
    rw [List.filter_eq_nil_iff]
    intro i hi
    rw [hfin i (List.mem_range.mp hi)]
    simp
  unfold detect_deadlock
  simp only
  rw [hfilter]
  simp

/-- Witness for C3: the empty system (spec scenario 5). -/
theorem detect_deadlock_trivial_state_witness :
    validate_inputs 0 0 [] [] [] = (true, "") ∧
    detect_deadlock 0 0 [] [] [] = (false, [], "No deadlock detected.") :=
  ⟨by decide,
    detect_deadlock_trivial_state 0 0 [] [] [] (by decide) (Or.inl rfl)⟩

/-- C4: `validate_inputs` rejects every malformed shape with a non-empty
reason, checking allocation shape, then request shape, then available length,
and returning on the first failure; in particular an allocation shape error
always yields exactly `(false, "Allocation matrix must be n x m.")`. -/
theorem validate_inputs_rejects_malformed_shapes (n m : Nat)
    (allocation request : List (List Int)) (available : List Int)
    (h : ¬ (allocation.length = n ∧ ∀ row ∈ allocation, row.length = m) ∨
      ¬ (request.length = n ∧ ∀ row ∈ request, row.length = m) ∨
      available.length ≠ m) :
    (validate_inputs n m allocation request available).1 = false ∧
    (validate_inputs n m allocation request available).2 ≠ "" ∧
    (¬ (allocation.length = n ∧ ∀ row ∈ allocation, row.length = m) →
      validate_inputs n m allocation request available =
        (false, "Allocation matrix must be n x m.")) := by
  by_cases h1 : allocation.length ≠ n ∨ ∃ row ∈ allocation, row.length ≠ m
  · have heq : validate_inputs n m allocation request available =
        (false, "Allocation matrix must be n x m.") := by
      unfold validate_inputs
      rw [if_pos h1]
    rw [heq]
    exact ⟨rfl, by decide, fun _ => rfl⟩
  · have halloc : allocation.length = n ∧ ∀ row ∈ allocation, row.length = m := by
      push_neg at h1
      exact h1
    by_cases h2 : request.length ≠ n ∨ ∃ row ∈ request, row.length ≠ m
    · have heq : validate_inputs n m allocation request available =
          (false, "Request matrix must be n x m.") := by
        unfold validate_inputs
        rw [if_neg h1, if_pos h2]
      rw [heq]
      exact ⟨rfl, by decide, fun hc => absurd halloc hc⟩
    · have hreq : request.length = n ∧ ∀ row ∈ request, row.length = m := by
        push_neg at h2
        exact h2
      have hav : available.length ≠ m := by
        rcases h with ha | hb | hc
        · exact absurd halloc ha
        · exact absurd hreq hb
        · exact hc
      have heq : validate_inputs n m allocation request available =
          (false, "Available vector must have m elements.") := by
        unfold validate_inputs
        rw [if_neg h1, if_neg h2, if_pos hav]
      rw [heq]
      exact ⟨rfl, by decide, fun hc => absurd halloc hc⟩

/-- Witness for C4: spec scenario 4 — `n = 2` but the allocation matrix has
three rows. -/
theorem validate_inputs_rejects_malformed_shapes_witness :
    (¬ (([[0], [0], [0]] : List (List Int)).length = 2 ∧
        ∀ row ∈ ([[0], [0], [0]] : List (List Int)), row.length = 1) ∨
      ¬ (([[0], [0]] : List (List Int)).length = 2 ∧
        ∀ row ∈ ([[0], [0]] : List (List Int)), row.length = 1) ∨
      ([0] : List Int).length ≠ 1) ∧
    ((validate_inputs 2 1 [[0], [0], [0]] [[0], [0]] [0]).1 = false ∧
      (validate_inputs 2 1 [[0], [0], [0]] [[0], [0]] [0]).2 ≠ "" ∧
      (¬ (([[0], [0], [0]] : List (List Int)).length = 2 ∧
          ∀ row ∈ ([[0], [0], [0]] : List (List Int)), row.length = 1) →
        validate_inputs 2 1 [[0], [0], [0]] [[0], [0]] [0] =
          (false, "Allocation matrix must be n x m."))) :=
  ⟨Or.inl (by decide),
    validate_inputs_rejects_malformed_shapes 2 1 [[0], [0], [0]] [[0], [0]] [0]
      (Or.inl (by decide))⟩

/-- C5: any negative entry in either matrix or in the available vector makes
`validate_inputs` return `false`; conversely every well-shaped, non-negative
input is accepted as `(true, "")`. -/
theorem validate_inputs_negativity_and_success (n m : Nat)
    (allocation request : List (List Int)) (available : List Int) :
    (((∃ row ∈ allocation, ∃ x ∈ row, x < 0) ∨
        (∃ row ∈ request, ∃ x ∈ row, x < 0) ∨
        ∃ v ∈ available, v < 0) →
      (validate_inputs n m allocation request available).1 = false) ∧
    (ValidState n m allocation request available →
      validate_inputs n m allocation request available = (true, "")) := by
  constructor
  · intro hneg
    cases hb : (validate_inputs n m allocation request available).1
    · rfl
    · exfalso
      have hok : validate_inputs n m allocation request available = (true, "") := by
        unfold validate_inputs at hb ⊢
        split_ifs at hb ⊢
        rfl
      have hv := (validate_inputs_eq_true_iff n m allocation request available).mp hok
      rcases hneg with ⟨row, hrow, x, hx, hx0⟩ | ⟨row, hrow, x, hx, hx0⟩ | ⟨v, hvv, hv0⟩
      · exact absurd (hv.alloc_nonneg row hrow x hx) (not_le.mpr hx0)
      · exact absurd (hv.req_nonneg row hrow x hx) (not_le.mpr hx0)
      · exact absurd (hv.avail_nonneg v hvv) (not_le.mpr hv0)
  · exact (validate_inputs_eq_true_iff n m allocation request available).mpr

/-- Witness for C5: a negative allocation entry is rejected, and the valid
circular-wait state is accepted. -/
theorem validate_inputs_negativity_and_success_witness :
    (validate_inputs 1 1 [[-1]] [[0]] [0]).1 = false ∧
    validate_inputs 2 2 [[1, 0], [0, 1]] [[0, 1], [1, 0]] [0, 0] = (true, "") :=
  ⟨(validate_inputs_negativity_and_success 1 1 [[-1]] [[0]] [0]).1
      (Or.inl ⟨[-1], by decide, -1, by decide, by decide⟩),
    (validate_inputs_negativity_and_success 2 2 [[1, 0], [0, 1]]
        [[0, 1], [1, 0]] [0, 0]).2
      ⟨by decide, by decide, by decide, by decide, by decide, by decide,
        by decide, by decide⟩⟩

/-- C6: `isDeadlock` is `true` exactly when `deadlockedProcesses` is
non-empty; the message is the fixed format naming the indices, or the fixed
"no deadlock" string with an empty list. -/
theorem detect_deadlock_output_format (n m : Nat)
    (allocation request : List (List Int)) (available : List Int) :
    ((detect_deadlock n m allocation request available).1 = true ↔
      (detect_deadlock n m allocation request available).2.1 ≠ []) ∧
    ((detect_deadlock n m allocation request available).2.1 ≠ [] →
      (detect_deadlock n m allocation request available).2.2 =
        "Deadlock detected in processes: " ++
          toString (detect_deadlock n m allocation request available).2.1 ++ ".") ∧
    ((detect_deadlock n m allocation request available).2.1 = [] →
      (detect_deadlock n m allocation request available).1 = false ∧
      (detect_deadlock n m allocation request available).2.2 =
        "No deadlock detected.") := by
  unfold detect_deadlock
  simp only
  split
  case isTrue h =>
    exact ⟨iff_of_true rfl h, fun _ => rfl, fun hc => absurd hc h⟩
  case isFalse h =>
    refine ⟨iff_of_false (by simp) (by simp), ?_, ?_⟩
    · intro hc
      exact absurd rfl hc
    · intro _
      exact ⟨rfl, rfl⟩

/-- Witness for C6 at the circular-wait state (inner implications are
conditions, discharged by applying the theorem at a concrete input). -/
theorem detect_deadlock_output_format_witness :
    ((detect_deadlock 3 1 [[1], [1], [1]] [[1], [1], [1]] [0]).1 = true ↔
      (detect_deadlock 3 1 [[1], [1], [1]] [[1], [1], [1]] [0]).2.1 ≠ []) ∧
    ((detect_deadlock 3 1 [[1], [1], [1]] [[1], [1], [1]] [0]).2.1 ≠ [] →
      (detect_deadlock 3 1 [[1], [1], [1]] [[1], [1], [1]] [0]).2.2 =
        "Deadlock detected in processes: " ++
          toString (detect_deadlock 3 1 [[1], [1], [1]] [[1], [1], [1]] [0]).2.1
          ++ ".") ∧
    ((detect_deadlock 3 1 [[1], [1], [1]] [[1], [1], [1]] [0]).2.1 = [] →
      (detect_deadlock 3 1 [[1], [1], [1]] [[1], [1], [1]] [0]).1 = false ∧
      (detect_deadlock 3 1 [[1], [1], [1]] [[1], [1], [1]] [0]).2.2 =
        "No deadlock detected.") :=
  detect_deadlock_output_format 3 1 [[1], [1], [1]] [[1], [1], [1]] [0]

/-- C7: on a valid input the `work` vector is element-wise non-decreasing:
across each inner-loop step, across any number of loop iterations, and from
its initialization (a copy of `available`) to the final fixed point. -/
theorem detect_deadlock_work_monotone (n m : Nat)
    (allocation request : List (List Int)) (available : List Int)
    (hval : validate_inputs n m allocation request available = (true, "")) :
    (∀ st i, ∀ j < m,
      st.1.getD j 0 ≤ (passStep m allocation request st i).1.getD j 0) ∧
    (∀ fuel work finish, ∀ j < m, work.getD j 0 ≤
      (detect_loop (List.range n) m allocation request fuel work finish).1.getD j 0) ∧
    (∀ j < m, available.getD j 0 ≤
      (detect_loop (List.range n) m allocation request (n + 1) available
        (List.replicate n false)).1.getD j 0) := by
  have hv := (validate_inputs_eq_true_iff n m allocation request available).mp hval
  have hA := hv.matEntry_alloc_nonneg
  exact ⟨fun st i j hj => passStep_work_mono hA st i hj,
    fun fuel work finish j hj =>
      detect_loop_work_mono hA (List.range n) fuel work finish hj,
    fun j hj =>
      detect_loop_work_mono hA (List.range n) (n + 1) available
        (List.replicate n false) hj⟩

/-- Witness for C7 at the classic five-process safe state. -/
theorem detect_deadlock_work_monotone_witness :
    validate_inputs 5 3
      [[0,1,0],[2,0,0],[3,0,2],[2,1,1],[0,0,2]]
      [[0,0,0],[2,0,2],[0,0,1],[1,0,0],[0,0,2]] [3,3,2] = (true, "") ∧
    (∀ j < 3, ([3,3,2] : List Int).getD j 0 ≤
      (detect_loop (List.range 5) 3
        [[0,1,0],[2,0,0],[3,0,2],[2,1,1],[0,0,2]]
        [[0,0,0],[2,0,2],[0,0,1],[1,0,0],[0,0,2]] 6 [3,3,2]
        (List.replicate 5 false)).1.getD j 0) :=
  ⟨by decide,
    (detect_deadlock_work_monotone 5 3
      [[0,1,0],[2,0,0],[3,0,2],[2,1,1],[0,0,2]]
      [[0,0,0],[2,0,2],[0,0,1],[1,0,0],[0,0,2]] [3,3,2] (by decide)).2.2⟩

/-- C8: `detect_deadlock` never mutates its caller-supplied arguments: the
threaded variant returns the caller environment unchanged while computing
the very same result. -/
theorem detect_deadlock_frame_preservation (n m : Nat)
    (allocation request : List (List Int)) (available : List Int) :
    (detect_deadlock_frame n m ⟨allocation, request, available⟩).2 =
      ⟨allocation, request, available⟩ ∧
    (detect_deadlock_frame n m ⟨allocation, request, available⟩).1 =
      detect_deadlock n m allocation request available := by
  rw [detect_deadlock_frame_eq]
  exact ⟨rfl, rfl⟩

/-- C9: the `while True` loop of `detect_deadlock` terminates within `n + 1`
passes on every input: any fuel of at least `n + 1` yields the same state,
and the pass after the final state marks nothing (`found = False`). -/
theorem detect_loop_termination (n m : Nat)
    (allocation request : List (List Int)) (available : List Int)
    (fuel : Nat) (hfuel : n + 1 ≤ fuel) :
    detect_loop (List.range n) m allocation request fuel available
        (List.replicate n false) =
      detect_loop (List.range n) m allocation request (n + 1) available
        (List.replicate n false) ∧
    (detect_pass (List.range n) m allocation request
      (detect_loop (List.range n) m allocation request (n + 1) available
        (List.replicate n false)).1
      (detect_loop (List.range n) m allocation request (n + 1) available
        (List.replicate n false)).2).2.2 = false := by
  have hlen : (List.replicate n false).length = n := List.length_replicate n false
  have hord : ∀ i ∈ List.range n, i < (List.replicate n false).length := by
    rw [hlen]
    exact fun i hi => List.mem_range.mp hi
  constructor
  · exact detect_loop_fuel_irrelevant (List.range n) m allocation request fuel
      (n + 1) available (List.replicate n false) (by rw [hlen]; omega)
      (by rw [hlen]; omega) hord
  · rw [detect_loop_fixpoint (List.range n) m allocation request (n + 1)
      available (List.replicate n false) (by rw [hlen]; omega) hord]

/-- Witness for C9: fuel 4 and fuel 3 + 1 coincide on the three-process
deadlocked state, and the final pass finds nothing. -/
theorem detect_loop_termination_witness :
    3 + 1 ≤ 4 ∧
    (detect_loop (List.range 3) 1 [[1], [1], [1]] [[1], [1], [1]] 4 [0]
        (List.replicate 3 false) =
      detect_loop (List.range 3) 1 [[1], [1], [1]] [[1], [1], [1]] (3 + 1) [0]
        (List.replicate 3 false) ∧
    (detect_pass (List.range 3) 1 [[1], [1], [1]] [[1], [1], [1]]
      (detect_loop (List.range 3) 1 [[1], [1], [1]] [[1], [1], [1]] (3 + 1) [0]
        (List.replicate 3 false)).1
      (detect_loop (List.range 3) 1 [[1], [1], [1]] [[1], [1], [1]] (3 + 1) [0]
        (List.replicate 3 false)).2).2.2 = false) :=
  ⟨by decide,
    detect_loop_termination 3 1 [[1], [1], [1]] [[1], [1], [1]] [0] 4 (by decide)⟩

/-- C10: for a non-empty deadlocked list with in-range indices, the
`except ValueError` fallback of `suggest_resolution` is unreachable: the
minimum exists and the advice always carries both strategies followed by the
victim recommendation. -/
theorem suggest_resolution_min_never_raises (deadlocked : List Nat)
    (allocation request : List (List Int)) (hne : deadlocked ≠ [])
    (hcov : ∀ k ∈ deadlocked, k < allocation.length) :
    ∃ victim, minByKey (rowSum allocation) deadlocked = some victim ∧
      suggest_resolution deadlocked allocation request =
        String.intercalate "<br>" [strategy1, strategy2, recommendation victim] := by
  cases deadlocked with
  | nil => exact absurd rfl hne
  | cons x xs => exact ⟨minFold (rowSum allocation) x xs, rfl, rfl⟩

/-- Witness for C10: the fully deadlocked three-process state. -/
theorem suggest_resolution_min_never_raises_witness :
    (([0, 1, 2] : List Nat) ≠ [] ∧
      ∀ k ∈ ([0, 1, 2] : List Nat), k < ([[1], [1], [1]] : List (List Int)).length) ∧
    (∃ victim, minByKey (rowSum [[1], [1], [1]]) [0, 1, 2] = some victim ∧
      suggest_resolution [0, 1, 2] [[1], [1], [1]] [[1], [1], [1]] =
        String.intercalate "<br>" [strategy1, strategy2, recommendation victim]) :=
  ⟨⟨by decide, by decide⟩,
    suggest_resolution_min_never_raises [0, 1, 2] [[1], [1], [1]] [[1], [1], [1]]
      (by decide) (by decide)⟩

end Deadlock

section Scratch
open Deadlock

-- spec scenario 2: total deadlock
example :
    detect_deadlock 3 1 [[1], [1], [1]] [[1], [1], [1]] [0] =
      (true, [0, 1, 2], "Deadlock detected in processes: [0, 1, 2].") := by
  decide

-- spec scenario 1: classic safe state
example :
    (detect_deadlock 5 3
      [[0,1,0],[2,0,0],[3,0,2],[2,1,1],[0,0,2]]
      [[0,0,0],[2,0,2],[0,0,1],[1,0,0],[0,0,2]]
      [3,3,2]).1 = false := by
  decide

-- spec scenario 3
example :
    detect_deadlock 2 2 [[1,0],[0,1]] [[0,1],[1,0]] [0,0] =
      (true, [0, 1], "Deadlock detected in processes: [0, 1].") := by
  decide

example :
    suggest_resolution [0, 1] [[1,0],[0,1]] [[0,1],[1,0]] =
      strategy1 ++ "<br>" ++ strategy2 ++ "<br>" ++ recommendation 0 := by
  decide

example : validate_inputs 2 1 [[0],[0],[0]] [[0],[0]] [0] =
    (false, "Allocation matrix must be n x m.") := by
  decide

example : validate_inputs 2 2 [[1,0],[0,1]] [[0,1],[1,0]] [0,0] = (true, "") := by
  decide

example : validate_inputs 1 1 [[-1]] [[0]] [0] =
    (false, "Values must be non-negative.") := by
  decide

end Scratch
